import Mathlib

/-!
Verification of the missing-media-scripts repository core: the filename
fix-suggestion pipeline (`windows_filename_validator.py`), the snapshot
diff (`generate_missing_media_list.py`), the retention manager
(`manage_files.py`) and the media scanner (`generate_media_list.py`).
Strings are modelled as `List Char`; every Python string operation used by
the code is embedded as an executable Lean function on `List Char`.
-/

namespace MissingMedia

/-- Model of `str.lower` (ASCII range, as used on filenames). -/
def pyLower (l : List Char) : List Char := l.map Char.toLower

/-- Model of `str.upper` (ASCII range, as used on filenames). -/
def upperChars (l : List Char) : List Char := l.map Char.toUpper

/-- Model of posix `os.path.basename`: the part after the last `/`. -/
def basename (l : List Char) : List Char :=
  (l.reverse.takeWhile (fun c => !(c == '/'))).reverse

/-- Split a separator-free name at its last dot: returns `some (root, ext)`
with `root ++ ext = l` and `ext` starting at the last `.`, or `none` when
there is no dot. -/
def splitAtLastDot : List Char → Option (List Char × List Char)
  | [] => none
  | c :: cs =>
    match splitAtLastDot cs with
    | some (r, e) => some (c :: r, e)
    | none => if c = '.' then some ([], '.' :: cs) else none

/-- Model of `os.path.splitext` on a separator-free basename: the extension
begins at the last dot, except that a name whose part before the last dot
consists only of dots (e.g. `.bashrc`, `..`) has no extension. -/
def splitext (l : List Char) : List Char × List Char :=
  match splitAtLastDot l with
  | none => (l, [])
  | some (r, e) => if r.all (fun c => c == '.') then (l, []) else (r, e)

/-- Model of `str.rstrip('. ')`: remove trailing dots and spaces. -/
def rstripDotSpace (l : List Char) : List Char :=
  (l.reverse.dropWhile (fun c => c == '.' || c == ' ')).reverse

/-- Model of `str.strip('_')`: remove leading and trailing underscores. -/
def stripUnderscores (l : List Char) : List Char :=
  ((l.dropWhile (fun c => c == '_')).reverse.dropWhile (fun c => c == '_')).reverse

/-- The `WindowsFilenameValidator.INVALID_CHARS` set `<>:"|?*\/`. -/
def INVALID_CHARS : List Char := ['<', '>', ':', '"', '|', '?', '*', '\\', '/']

/-- Membership in `INVALID_CHARS`. -/
def isInvalidChar (c : Char) : Bool := INVALID_CHARS.contains c

/-- The `WindowsFilenameValidator.RESERVED_NAMES` set. -/
def RESERVED_NAMES : List (List Char) :=
  ["CON".data, "PRN".data, "AUX".data, "NUL".data,
   "COM1".data, "COM2".data, "COM3".data, "COM4".data, "COM5".data,
   "COM6".data, "COM7".data, "COM8".data, "COM9".data,
   "LPT1".data, "LPT2".data, "LPT3".data, "LPT4".data, "LPT5".data,
   "LPT6".data, "LPT7".data, "LPT8".data, "LPT9".data]

/-- Step 1 of `suggest_filename_fix`: replace every invalid character with
an underscore (the loop of `str.replace` calls, one per invalid character,
is pointwise since `_` is not itself invalid). -/
def replaceInvalid (l : List Char) : List Char :=
  l.map (fun c => if isInvalidChar c then '_' else c)

/-- Step 2 of `suggest_filename_fix`: drop control characters (ord < 32). -/
def removeControl (l : List Char) : List Char :=
  l.filter (fun c => decide (32 ≤ c.toNat))

/-- Model of the Python slice `l[:m]` for an `int` bound `m` (negative
bounds count from the end, clamped at zero). -/
def pyTake (m : Int) (l : List α) : List α :=
  if 0 ≤ m then l.take m.toNat else l.take ((l.length : Int) + m).toNat

/-- Model of the Python slice `l[m:]` for an `int` bound `m` (negative
bounds count from the end, clamped at zero). -/
def pyDrop (m : Int) (l : List α) : List α :=
  if 0 ≤ m then l.drop m.toNat else l.drop ((l.length : Int) + m).toNat

/-- One pass of `str.replace('__', '_')`: leftmost non-overlapping
replacement of each double underscore by a single one. -/
def replaceDunder : List Char → List Char
  | [] => []
  | [c] => [c]
  | c :: d :: rest =>
    if c = '_' ∧ d = '_' then '_' :: replaceDunder rest
    else c :: replaceDunder (d :: rest)

/-- Model of the Python test `'__' in s`. -/
def hasDunder : List Char → Bool
  | c :: d :: rest => (c == '_' && d == '_') || hasDunder (d :: rest)
  | _ => false

/-- Fuel-indexed unfolding of the `while '__' in filename` loop; each pass
of `replaceDunder` on a string containing `__` strictly shrinks it, so
`l.length` fuel always suffices. -/
def collapseFuel : Nat → List Char → List Char
  | 0, l => l
  | n + 1, l => if hasDunder l then collapseFuel n (replaceDunder l) else l

/-- Step 6 of `suggest_filename_fix`: the `while '__' in filename:
filename = filename.replace('__', '_')` loop. -/
def collapseUnderscores (l : List Char) : List Char :=
  collapseFuel l.length l

/-- Step 3 of `suggest_filename_fix`: strip trailing dots and spaces from
the name part (before the extension) and reassemble. -/
def stripTrailingDots (l : List Char) : List Char :=
  rstripDotSpace (splitext l).1 ++ (splitext l).2

/-- Step 4 of `suggest_filename_fix`: if the uppercased name part is a
reserved Windows name, append `_file` to the name part. -/
def fixReserved (l : List Char) : List Char :=
  if RESERVED_NAMES.contains (upperChars (splitext l).1) then
    (splitext l).1 ++ "_file".data ++ (splitext l).2
  else l

/-- Step 5 of `suggest_filename_fix`: if the filename exceeds 255
characters, truncate the name part to make room for the extension. -/
def truncateLong (l : List Char) : List Char :=
  if 255 < l.length then
    pyTake ((255 : Int) - ((splitext l).2.length : Int)) (splitext l).1 ++ (splitext l).2
  else l

/-- Step 7 of `suggest_filename_fix`: strip leading and trailing
underscores from the name part and reassemble. -/
def stripNameUnderscores (l : List Char) : List Char :=
  stripUnderscores (splitext l).1 ++ (splitext l).2

/-- The whole normalization pipeline of
`WindowsFilenameValidator.suggest_filename_fix`, applied to a basename. -/
def fixPipeline (l : List Char) : List Char :=
  stripNameUnderscores (collapseUnderscores (truncateLong (fixReserved
    (stripTrailingDots (removeControl (replaceInvalid l))))))

/-- `WindowsFilenameValidator.suggest_filename_fix`: run the pipeline on
the basename of the path and return the result only when it differs from
the original filename. -/
def suggest_filename_fix (filepath : List Char) : Option (List Char) :=
  let filename := basename filepath
  let fixed := fixPipeline filename
  if fixed = filename then none else some fixed

/-! ## Snapshot loading and the missing-media diff
(`generate_missing_media_list.py`, `windows_filename_validator.py`). -/

/-- Model of `str.splitlines` for content whose only line terminator is
`\n` (the format written by the snapshot writers): split on `\n`, with no
trailing empty line for newline-terminated content. -/
def splitlines : List Char → List (List Char)
  | [] => []
  | c :: cs =>
    if c = '\n' then [] :: splitlines cs
    else
      match splitlines cs with
      | [] => [[c]]
      | x :: xs => (c :: x) :: xs

/-- ASCII whitespace, as recognised by `str.strip()`. -/
def isSpaceChar (c : Char) : Bool :=
  c == ' ' || c == '\t' || c == '\n' || c == '\r' || c == '\x0b' || c == '\x0c'

/-- Model of `str.strip()`: remove leading and trailing whitespace. -/
def stripWS (l : List Char) : List Char :=
  ((l.dropWhile isSpaceChar).reverse.dropWhile isSpaceChar).reverse

/-- `load_titles_from_file` in `generate_missing_media_list.py` (and the
identical local loader in `media_manager_gui.py`):
`set(f.read().splitlines())` — every line verbatim, collected into a set. -/
def load_titles_from_file (content : List Char) : Finset (List Char) :=
  (splitlines content).toFinset

/-- The file-list loader of `WindowsFilenameValidator.validate_from_file`:
`[line.strip() for line in f if line.strip()]` — whitespace-trimmed lines,
empty lines dropped. -/
def validator_load_list (content : List Char) : List (List Char) :=
  ((splitlines content).map stripWS).filter (fun l => !l.isEmpty)

/-- The loader of `validate_from_file`, viewed as a set of entries. -/
def validator_load (content : List Char) : Finset (List Char) :=
  (validator_load_list content).toFinset

/-- Modelled from the spec: "read all non-empty lines, trim line-ending
whitespace, collect into a set" — the spec's description of snapshot
loading, used to compare against the two loaders in the source. -/
def load_spec (content : List Char) : Finset (List Char) :=
  (((splitlines content).map stripWS).filter (fun l => !l.isEmpty)).toFinset

/-- The snapshot writers (`generate_media_list.py`,
`generate_missing_media_list.py`): one entry per line, each terminated by
`\n` (`f.write(f"{title}\n")`). -/
def writeLines (entries : List (List Char)) : List Char :=
  (entries.map (fun e => e ++ ['\n'])).flatten

/-- The diff of `generate_missing_media_list` (lines 62-70): load both
snapshot files and compute `second_most_recent_titles - most_recent_titles`
(older minus newer). -/
def missing_titles (olderContent newerContent : List Char) : Finset (List Char) :=
  load_titles_from_file olderContent \ load_titles_from_file newerContent

/-! ## Retention management (`manage_files.py`) and snapshot discovery
(`generate_missing_media_list.find_two_most_recent_media_lists`). -/

/-- A file as seen by `glob.glob` + `os.path.getmtime`: a name and a
modification time. -/
structure MFile where
  name : List Char
  mtime : Nat
deriving DecidableEq, Repr

/-- Insert into a list that is sorted by descending mtime, before any
later-listed file with the same mtime (stability of Python's `sorted`). -/
def insertDesc (x : MFile) : List MFile → List MFile
  | [] => [x]
  | y :: ys => if y.mtime ≤ x.mtime then x :: y :: ys else y :: insertDesc x ys

/-- Model of `sorted(files, key=os.path.getmtime, reverse=True)`: a stable
sort by descending modification time. -/
def sortDesc : List MFile → List MFile
  | [] => []
  | x :: xs => insertDesc x (sortDesc xs)

/-- Strictly ascending modification times (oldest first, no ties). -/
def strictAscB : List MFile → Bool
  | a :: b :: rest => (decide (a.mtime < b.mtime)) && strictAscB (b :: rest)
  | _ => true

/-- The deletion loop of `manage_files`: attempt to remove every file in
the to-delete list; a failed removal (`delOk` false) is caught, logged and
skipped, so it neither stops the loop nor increments the success counter.
Returns the number of successful deletions and the files left behind. -/
def deleteLoop (delOk : List Char → Bool) : List MFile → Nat × List MFile
  | [] => (0, [])
  | f :: fs =>
    let r := deleteLoop delOk fs
    if delOk f.name then (r.1 + 1, r.2) else (r.1, f :: r.2)

/-- The observable outcome of `manage_files`: the returned triple
`(files_kept, files_deleted, error_message)` plus the post-state of the
directory (which matched files still exist). -/
structure MFResult where
  kept : Int
  deleted : Nat
  error : Option (List Char)
  remaining : List MFile
deriving DecidableEq, Repr

/-- `manage_files(directory, retention_count, file_pattern)`.
`dirExists` models `os.path.exists(directory)`; `files` is the `glob`
listing of the matching files with their mtimes; `delOk` tells which
`os.remove` calls succeed. Mirrors the source: missing directory returns
`(0, 0, "Directory does not exist: ...")`; otherwise the listing is sorted
newest-first, `files_kept = min(len(files), retention_count)`, and when
`len(files) > retention_count` the slice `files[retention_count:]` is
deleted file by file, counting successes. -/
def manage_files (directory : List Char) (dirExists : Bool) (files : List MFile)
    (retention_count : Int) (delOk : List Char → Bool) : MFResult :=
  if dirExists then
    let sorted := sortDesc files
    let kept : Int := min (files.length : Int) retention_count
    if retention_count < (files.length : Int) then
      let toDelete := pyDrop retention_count sorted
      let r := deleteLoop delOk toDelete
      ⟨kept, r.1, none, pyTake retention_count sorted ++ r.2⟩
    else ⟨kept, 0, none, sorted⟩
  else ⟨0, 0, some ("Directory does not exist: ".data ++ directory), files⟩

/-- `find_two_most_recent_media_lists(directory, pattern)`: sort the glob
matches by descending mtime and return the first two names, or
`(None, None)` when fewer than two files match; a missing directory makes
`glob.glob` return the empty list. Total — never raises. -/
def find_two_most_recent_media_lists (dirExists : Bool) (files : List MFile) :
    Option (List Char) × Option (List Char) :=
  let fs := if dirExists then sortDesc files else []
  match fs with
  | a :: b :: _ => (some a.name, some b.name)
  | _ => (none, none)

/-! ## The media scanner (`generate_media_list.py`). -/

mutual
/-- A directory tree: name, subdirectories, plain files. -/
inductive FSTree where
  | node : List Char → FSForest → List (List Char) → FSTree

/-- A list of sibling directory trees. -/
inductive FSForest where
  | nil : FSForest
  | cons : FSTree → FSForest → FSForest
end

/-- The name of a directory node. -/
def FSTree.dirname : FSTree → List Char
  | .node n _ _ => n

/-- Model of `d.startswith('.')` on a directory name. -/
def hiddenName : List Char → Bool
  | '.' :: _ => true
  | _ => false

/-- The matching test of `generate_media_list`:
`file.lower().endswith(tuple(file_extensions))`. -/
def matchesExt (exts : List (List Char)) (f : List Char) : Bool :=
  exts.any (fun e => e.isSuffixOf (pyLower f))

mutual
/-- `os.walk(directory, topdown=True)` with
`dirs[:] = [d for d in dirs if not d.startswith('.')]`, collecting
`os.path.join(root, file)` for every matching file: the current node's
matching files first, then the non-hidden subdirectories in order.
`cur` is the path of the node itself. -/
def walkTree (exts : List (List Char)) (cur : List Char) : FSTree → List (List Char)
  | .node _ subs files =>
    (files.filter (matchesExt exts)).map (fun f => cur ++ '/' :: f) ++
      walkForest exts cur subs

/-- Walk each subdirectory of a forest, pruning hidden names before
descending (their subtrees are never entered). -/
def walkForest (exts : List (List Char)) (cur : List Char) : FSForest → List (List Char)
  | .nil => []
  | .cons t rest =>
    (if hiddenName t.dirname then [] else walkTree exts (cur ++ '/' :: t.dirname) t) ++
      walkForest exts cur rest
end

/-- `generate_media_list(directories, ...)`: scan each root directory in
order; the root's own path string is the configured directory path. -/
def generate_media_list (exts : List (List Char)) (roots : List (List Char × FSTree)) :
    List (List Char) :=
  (roots.map (fun r => walkTree exts r.1 r.2)).flatten

/-! ## Report generation (`WindowsFilenameValidator.generate_report`). -/

/-- The per-path block of the report: `📁 {filepath}`, one `   • {issue}`
line per issue, then a blank line. -/
def issueBlock (p : List Char) (issues : List (List Char)) : List Char :=
  "📁 ".data ++ p ++ "\n".data ++
    (issues.map (fun i => "   • ".data ++ i ++ "\n".data)).flatten ++ "\n".data

/-- The fixed remediation-hints block appended to a non-empty report. -/
def hintsBlock : List Char :=
  ("\n📝 Common fixes:\n" ++
   "• Remove or replace invalid characters: < > : \" | ? * \\ /\n" ++
   "• Rename files that use reserved Windows names (CON, PRN, AUX, etc.)\n" ++
   "• Remove trailing periods and spaces from filenames\n" ++
   "• Shorten very long filenames or paths\n" ++
   "• Remove leading/trailing spaces from directory names\n").data

/-- The summary line of a non-empty report. -/
def reportHeader (n : Nat) : List Char :=
  "❌ Found ".data ++ (Nat.repr n).data ++ " files with Windows naming issues:\n\n".data

/-- `generate_report(validation_results)`: the results dictionary is
modelled as an association list in insertion order (Python dicts preserve
insertion order); the report accumulator `report += ...` is a fold over
the entries in that order. -/
def generate_report (results : List (List Char × List (List Char))) : List Char :=
  if results.isEmpty then
    "✅ No Windows filename compatibility issues found!\n".data
  else
    (results.foldl (fun acc pr => acc ++ issueBlock pr.1 pr.2)
      (reportHeader results.length)) ++ hintsBlock

/-- Lexicographic comparison of paths (Python `sorted` on strings). -/
def listCharLe : List Char → List Char → Bool
  | [], _ => true
  | _ :: _, [] => false
  | c :: a, d :: b => if c = d then listCharLe a b else decide (c < d)

/-- Insertion into a path-sorted association list. -/
def insertByPath (x : List Char × List (List Char)) :
    List (List Char × List (List Char)) → List (List Char × List (List Char))
  | [] => [x]
  | y :: ys => if listCharLe x.1 y.1 then x :: y :: ys else y :: insertByPath x ys

/-- Sorting of the results by path. -/
def sortByPath : List (List Char × List (List Char)) → List (List Char × List (List Char))
  | [] => []
  | x :: xs => insertByPath x (sortByPath xs)

/-- Modelled from the spec: "per-path blocks in the same sort order as
DiffEngine's output convention (sorted by path)" — report generation as
the spec describes it, rendering the per-path blocks in lexicographic
order of the path strings. -/
def generate_report_sorted_spec (results : List (List Char × List (List Char))) : List Char :=
  generate_report (sortByPath results)

/-! ## Lemmas about the string utilities. -/

theorem splitAtLastDot_append : ∀ {l r e : List Char},
    splitAtLastDot l = some (r, e) → r ++ e = l := by
  intro l
  induction l with
  | nil => intro r e h; simp [splitAtLastDot] at h
  | cons c cs ih =>
    intro r e h
    simp only [splitAtLastDot] at h
    cases hcs : splitAtLastDot cs with
    | some p =>
      rw [hcs] at h
      cases h
      simpa using congrArg (c :: ·) (ih (by rw [hcs]))
    | none =>
      rw [hcs] at h
      by_cases hc : c = '.'
      · rw [if_pos hc] at h
        cases h
        simp [hc]
      · rw [if_neg hc] at h
        cases h

theorem splitext_append (l : List Char) : (splitext l).1 ++ (splitext l).2 = l := by
  unfold splitext
  cases h : splitAtLastDot l with
  | none => simp
  | some p =>
    by_cases hd : p.1.all (fun c => c == '.')
    · simp [hd]
    · simpa [hd] using splitAtLastDot_append (r := p.1) (e := p.2) (by rw [h])

theorem mem_splitext_fst {c : Char} {l : List Char} (h : c ∈ (splitext l).1) : c ∈ l := by
  rw [← splitext_append l]
  exact List.mem_append_left _ h

theorem mem_splitext_snd {c : Char} {l : List Char} (h : c ∈ (splitext l).2) : c ∈ l := by
  rw [← splitext_append l]
  exact List.mem_append_right _ h

theorem mem_rstripDotSpace {c : Char} {l : List Char} (h : c ∈ rstripDotSpace l) : c ∈ l := by
  unfold rstripDotSpace at h
  rw [List.mem_reverse] at h
  have := (List.dropWhile_sublist (l := l.reverse) _).subset h
  rwa [List.mem_reverse] at this

theorem mem_stripUnderscores {c : Char} {l : List Char} (h : c ∈ stripUnderscores l) : c ∈ l := by
  unfold stripUnderscores at h
  rw [List.mem_reverse] at h
  have h1 := (List.dropWhile_sublist _).subset h
  rw [List.mem_reverse] at h1
  exact (List.dropWhile_sublist _).subset h1

theorem mem_pyTake {c : α} {m : Int} {l : List α} (h : c ∈ pyTake m l) : c ∈ l := by
  unfold pyTake at h
  split at h
  · exact List.take_subset _ _ h
  · exact List.take_subset _ _ h

theorem mem_replaceDunder : ∀ (l : List Char) (c : Char), c ∈ replaceDunder l → c ∈ l
  | [], c, h => by simp [replaceDunder] at h
  | [d], c, h => by simpa [replaceDunder] using h
  | a :: b :: rest, c, h => by
    simp only [replaceDunder] at h
    split at h
    · rename_i hab
      rcases List.mem_cons.mp h with h1 | h2
      · rw [h1, hab.1]; exact List.mem_cons_self _ _
      · exact List.mem_cons_of_mem _ (List.mem_cons_of_mem _ (mem_replaceDunder rest c h2))
    · rcases List.mem_cons.mp h with h1 | h2
      · rw [h1]; exact List.mem_cons_self _ _
      · exact List.mem_cons_of_mem _ (mem_replaceDunder (b :: rest) c h2)

theorem mem_collapseFuel : ∀ (n : Nat) (l : List Char) (c : Char),
    c ∈ collapseFuel n l → c ∈ l := by
  intro n
  induction n with
  | zero => intro l c h; exact h
  | succ n ih =>
    intro l c h
    simp only [collapseFuel] at h
    split at h
    · exact mem_replaceDunder _ _ (ih _ _ h)
    · exact h

theorem mem_collapseUnderscores {c : Char} {l : List Char}
    (h : c ∈ collapseUnderscores l) : c ∈ l :=
  mem_collapseFuel _ _ _ h

/-- A character that can appear in a fix suggestion: not a Windows-invalid
character and not a control character. -/
def goodChar (c : Char) : Prop := isInvalidChar c = false ∧ 32 ≤ c.toNat

theorem goodChar_underscore : goodChar '_' := by constructor <;> decide

theorem goodChar_file : ∀ c ∈ "_file".data, goodChar c := by
  intro c hc
  fin_cases hc <;> exact ⟨by decide, by decide⟩

theorem good_base (l : List Char) : ∀ c ∈ removeControl (replaceInvalid l), goodChar c := by
  intro c hc
  unfold removeControl at hc
  rw [List.mem_filter] at hc
  obtain ⟨hmem, hord⟩ := hc
  refine ⟨?_, of_decide_eq_true hord⟩
  unfold replaceInvalid at hmem
  rw [List.mem_map] at hmem
  obtain ⟨d, _, hd⟩ := hmem
  by_cases hinv : isInvalidChar d = true
  · rw [if_pos hinv] at hd
    rw [← hd]
    decide
  · rw [if_neg hinv] at hd
    rw [← hd]
    exact Bool.not_eq_true _ ▸ hinv

theorem good_stripTrailingDots {l : List Char} (H : ∀ c ∈ l, goodChar c) :
    ∀ c ∈ stripTrailingDots l, goodChar c := by
  intro c hc
  unfold stripTrailingDots at hc
  rcases List.mem_append.mp hc with h | h
  · exact H c (mem_splitext_fst (mem_rstripDotSpace h))
  · exact H c (mem_splitext_snd h)

theorem good_fixReserved {l : List Char} (H : ∀ c ∈ l, goodChar c) :
    ∀ c ∈ fixReserved l, goodChar c := by
  intro c hc
  unfold fixReserved at hc
  split at hc
  · rcases List.mem_append.mp hc with h | h
    · rcases List.mem_append.mp h with h1 | h1
      · exact H c (mem_splitext_fst h1)
      · exact goodChar_file c h1
    · exact H c (mem_splitext_snd h)
  · exact H c hc

theorem good_truncateLong {l : List Char} (H : ∀ c ∈ l, goodChar c) :
    ∀ c ∈ truncateLong l, goodChar c := by
  intro c hc
  unfold truncateLong at hc
  split at hc
  · rcases List.mem_append.mp hc with h | h
    · exact H c (mem_splitext_fst (mem_pyTake h))
    · exact H c (mem_splitext_snd h)
  · exact H c hc

theorem good_collapseUnderscores {l : List Char} (H : ∀ c ∈ l, goodChar c) :
    ∀ c ∈ collapseUnderscores l, goodChar c :=
  fun c hc => H c (mem_collapseUnderscores hc)

theorem good_stripNameUnderscores {l : List Char} (H : ∀ c ∈ l, goodChar c) :
    ∀ c ∈ stripNameUnderscores l, goodChar c := by
  intro c hc
  unfold stripNameUnderscores at hc
  rcases List.mem_append.mp hc with h | h
  · exact H c (mem_splitext_fst (mem_stripUnderscores h))
  · exact H c (mem_splitext_snd h)

theorem fixPipeline_good (l : List Char) : ∀ c ∈ fixPipeline l, goodChar c := by
  unfold fixPipeline
  exact good_stripNameUnderscores (good_collapseUnderscores (good_truncateLong
    (good_fixReserved (good_stripTrailingDots (good_base l)))))

/-! ## The double-underscore collapse loop. -/

theorem hasDunder_cons {c : Char} {l : List Char} :
    hasDunder (c :: l) = true ↔ (c = '_' ∧ l.head? = some '_') ∨ hasDunder l = true := by
  cases l with
  | nil => simp [hasDunder]
  | cons d r =>
    show ((c == '_' && d == '_') || hasDunder (d :: r)) = true ↔ _
    simp [Bool.or_eq_true, Bool.and_eq_true, beq_iff_eq]

theorem hasDunder_append : ∀ (a b : List Char),
    hasDunder (a ++ b) = true ↔
      hasDunder a = true ∨ hasDunder b = true ∨
        (a.getLast? = some '_' ∧ b.head? = some '_') := by
  intro a
  induction a with
  | nil => intro b; simp [hasDunder]
  | cons c rest ih =>
    intro b
    rw [List.cons_append, hasDunder_cons, ih]
    cases rest with
    | nil =>
      simp only [List.nil_append, hasDunder, List.getLast?_singleton]
      constructor
      · rintro (⟨h1, h2⟩ | h) <;> simp_all
      · rintro (h | h | ⟨h1, h2⟩) <;> simp_all
    | cons d r =>
      rw [hasDunder_cons (c := c) (l := d :: r), List.getLast?_cons_cons]
      simp only [List.cons_append, List.head?_cons]
      tauto

theorem hasDunder_reverse (l : List Char) :
    hasDunder l.reverse = true ↔ hasDunder l = true := by
  induction l with
  | nil => simp
  | cons c rest ih =>
    rw [List.reverse_cons, hasDunder_append, ih, List.getLast?_reverse]
    simp only [hasDunder_cons, List.head?_cons, Option.some_inj,
      show hasDunder ([c] : List Char) = false from rfl, List.head?_nil]
    tauto

theorem hasDunder_false_of_suffix {a l : List Char} (h : a <:+ l)
    (hl : hasDunder l = false) : hasDunder a = false := by
  obtain ⟨t, rfl⟩ := h
  by_contra hc
  rw [Bool.not_eq_false] at hc
  rw [(hasDunder_append t a).mpr (Or.inr (Or.inl hc))] at hl
  cases hl

theorem hasDunder_false_reverse {l : List Char} (h : hasDunder l = false) :
    hasDunder l.reverse = false := by
  by_contra hc
  rw [Bool.not_eq_false, hasDunder_reverse] at hc
  rw [hc] at h
  cases h

theorem hasDunder_stripUnderscores {l : List Char} (h : hasDunder l = false) :
    hasDunder (stripUnderscores l) = false := by
  unfold stripUnderscores
  exact hasDunder_false_reverse (hasDunder_false_of_suffix (List.dropWhile_suffix _)
    (hasDunder_false_reverse (hasDunder_false_of_suffix (List.dropWhile_suffix _) h)))

theorem head?_dropWhile {q : α → Bool} : ∀ {m : List α} {a : α},
    (m.dropWhile q).head? = some a → q a = false := by
  intro m
  induction m with
  | nil => intro a h; simp [List.dropWhile] at h
  | cons c r ih =>
    intro a h
    rw [List.dropWhile_cons] at h
    split at h
    · exact ih h
    · rw [List.head?_cons, Option.some_inj] at h
      rw [← h]
      rename_i hq
      exact Bool.not_eq_true _ ▸ hq

theorem getLast?_stripUnderscores {l : List Char} {a : Char}
    (h : (stripUnderscores l).getLast? = some a) : a ≠ '_' := by
  unfold stripUnderscores at h
  rw [List.getLast?_reverse] at h
  have := head?_dropWhile h
  simpa using this

theorem replaceDunder_length_le : ∀ l : List Char, (replaceDunder l).length ≤ l.length
  | [] => le_refl _
  | [c] => le_refl _
  | a :: b :: rest => by
    simp only [replaceDunder]
    split
    · have := replaceDunder_length_le rest
      simp only [List.length_cons]
      omega
    · have := replaceDunder_length_le (b :: rest)
      simp only [List.length_cons] at *
      omega

theorem replaceDunder_length_lt : ∀ l : List Char,
    hasDunder l = true → (replaceDunder l).length < l.length
  | [], h => by cases h
  | [c], h => by cases h
  | a :: b :: rest, h => by
    simp only [replaceDunder]
    split
    · have := replaceDunder_length_le rest
      simp only [List.length_cons]
      omega
    · rename_i hab
      have hfalse : (a == '_' && b == '_') = false := by
        by_contra hc
        rw [Bool.not_eq_false, Bool.and_eq_true, beq_iff_eq, beq_iff_eq] at hc
        exact hab hc
      have hbr : hasDunder (b :: rest) = true := by
        rw [show hasDunder (a :: b :: rest) =
          ((a == '_' && b == '_') || hasDunder (b :: rest)) from rfl, hfalse,
          Bool.false_or] at h
        exact h
      have := replaceDunder_length_lt (b :: rest) hbr
      simp only [List.length_cons] at *
      omega

theorem collapseFuel_noDunder : ∀ (n : Nat) (l : List Char),
    l.length ≤ n → hasDunder (collapseFuel n l) = false := by
  intro n
  induction n with
  | zero =>
    intro l h
    rw [Nat.le_zero, List.length_eq_zero] at h
    subst h
    rfl
  | succ n ih =>
    intro l h
    simp only [collapseFuel]
    split
    · rename_i hd
      refine ih _ ?_
      have := replaceDunder_length_lt l hd
      omega
    · rename_i hd
      exact Bool.not_eq_true _ ▸ hd

theorem hasDunder_collapseUnderscores (l : List Char) :
    hasDunder (collapseUnderscores l) = false :=
  collapseFuel_noDunder _ _ le_rfl

theorem collapseUnderscores_eq_of_noDunder {l : List Char}
    (h : hasDunder l = false) : collapseUnderscores l = l := by
  unfold collapseUnderscores
  cases hl : l.length with
  | zero => rfl
  | succ n => simp [collapseFuel, h]

theorem hasDunder_stripNameUnderscores {l : List Char} (h : hasDunder l = false) :
    hasDunder (stripNameUnderscores l) = false := by
  have happ := splitext_append l
  have hfst : hasDunder (splitext l).1 = false := by
    by_contra hc
    rw [Bool.not_eq_false] at hc
    have := (hasDunder_append (splitext l).1 (splitext l).2).mpr (Or.inl hc)
    rw [happ, h] at this
    cases this
  have hsnd : hasDunder (splitext l).2 = false := by
    by_contra hc
    rw [Bool.not_eq_false] at hc
    have := (hasDunder_append (splitext l).1 _).mpr (Or.inr (Or.inl hc))
    rw [happ, h] at this
    cases this
  unfold stripNameUnderscores
  by_contra hc
  rw [Bool.not_eq_false, hasDunder_append] at hc
  rcases hc with h1 | h2 | ⟨h3, _⟩
  · rw [hasDunder_stripUnderscores hfst] at h1
    cases h1
  · rw [hsnd] at h2
    cases h2
  · exact getLast?_stripUnderscores h3 rfl

theorem fixPipeline_noDunder (l : List Char) : hasDunder (fixPipeline l) = false :=
  hasDunder_stripNameUnderscores (hasDunder_collapseUnderscores _)

/-! ## Identity of each pipeline stage on an already-normalized name. -/

theorem replaceInvalid_eq_self {l : List Char} (h : ∀ c ∈ l, isInvalidChar c = false) :
    replaceInvalid l = l := by
  unfold replaceInvalid
  have : l.map (fun c => if isInvalidChar c then '_' else c) = l.map id :=
    List.map_congr_left (fun c hc => by rw [h c hc]; rfl)
  rw [this, List.map_id]

theorem removeControl_eq_self {l : List Char} (h : ∀ c ∈ l, 32 ≤ c.toNat) :
    removeControl l = l := by
  unfold removeControl
  exact List.filter_eq_self.mpr (fun c hc => decide_eq_true (h c hc))

theorem basename_eq_self {l : List Char} (h : ∀ c ∈ l, c ≠ '/') : basename l = l := by
  unfold basename
  have : l.reverse.takeWhile (fun c => !(c == '/')) = l.reverse := by
    apply List.takeWhile_eq_self_iff.mpr
    intro c hc
    rw [List.mem_reverse] at hc
    simp [h c hc]
  rw [this, List.reverse_reverse]

/-! ## Claims C1 and C10: the fix-suggestion pipeline. -/

/-- C10: whenever `suggest_filename_fix` returns a suggestion, the
suggested filename contains no character from the invalid set
`< > : " | ? * \ /` and no control character with ordinal below 32. -/
theorem suggest_fix_valid_chars (p f : List Char)
    (h : suggest_filename_fix p = some f) :
    ∀ c ∈ f, isInvalidChar c = false ∧ 32 ≤ c.toNat := by
  simp only [suggest_filename_fix] at h
  split at h
  · cases h
  · rw [Option.some_inj] at h
    rw [← h]
    exact fixPipeline_good _

/-- Witness for `suggest_fix_valid_chars` at the concrete path
`x<y.mkv`, whose suggestion is `x_y.mkv`. -/
theorem suggest_fix_valid_chars_witness :
    suggest_filename_fix ("x<y.mkv".data) = some ("x_y.mkv".data) ∧
      ∀ c ∈ "x_y.mkv".data, isInvalidChar c = false ∧ 32 ≤ c.toNat :=
  ⟨by decide, suggest_fix_valid_chars ("x<y.mkv".data) ("x_y.mkv".data) (by decide)⟩

/-- C1 counterexample: the pipeline is not idempotent. For the path
`_CON_.txt` the suggestion is `CON.txt` (underscore-stripping exposes the
reserved name only after the reserved-name check already ran), and a
second pass on `CON.txt` proposes the further change `CON_file.txt`
instead of `None`. -/
theorem suggest_fix_not_idempotent_cex :
    suggest_filename_fix ("_CON_.txt".data) = some ("CON.txt".data) ∧
      suggest_filename_fix ("CON.txt".data) = some ("CON_file.txt".data) ∧
      suggest_filename_fix ("CON.txt".data) ≠ none := by
  refine ⟨by decide, by decide, by decide⟩

/-- C1 amended: the second pass proposes no further change whenever the
first pass's suggested filename avoids the conditions the pipeline can
itself reintroduce — its name part does not end in a period or space, is
not (uppercased) a reserved Windows name, carries no leading or trailing
underscore, and the whole name is within the 255-character limit. (The
pipeline already guarantees the remaining stages are identities: no
invalid characters, no control characters, no double underscores.) -/
theorem suggest_fix_idempotent_amended (p f : List Char)
    (hs : suggest_filename_fix p = some f)
    (h3 : rstripDotSpace (splitext f).1 = (splitext f).1)
    (h4 : RESERVED_NAMES.contains (upperChars (splitext f).1) = false)
    (h5 : f.length ≤ 255)
    (h7 : stripUnderscores (splitext f).1 = (splitext f).1) :
    suggest_filename_fix f = none := by
  have hf : f = fixPipeline (basename p) := by
    simp only [suggest_filename_fix] at hs
    split at hs
    · cases hs
    · rw [Option.some_inj] at hs
      exact hs.symm
  have hgood : ∀ c ∈ f, goodChar c := hf ▸ fixPipeline_good (basename p)
  have hnod : hasDunder f = false := hf ▸ fixPipeline_noDunder (basename p)
  have hbase : basename f = f :=
    basename_eq_self (fun c hc hslash => by
      have := (hgood c hc).1
      rw [hslash] at this
      exact absurd this (by decide))
  have h1 : replaceInvalid f = f := replaceInvalid_eq_self (fun c hc => (hgood c hc).1)
  have h2 : removeControl f = f := removeControl_eq_self (fun c hc => (hgood c hc).2)
  have hst3 : stripTrailingDots f = f := by
    unfold stripTrailingDots
    rw [h3, splitext_append]
  have hst4 : fixReserved f = f := by
    unfold fixReserved
    rw [h4]
    simp
  have hst5 : truncateLong f = f := by
    unfold truncateLong
    rw [if_neg (by omega)]
  have hst6 : collapseUnderscores f = f := collapseUnderscores_eq_of_noDunder hnod
  have hst7 : stripNameUnderscores f = f := by
    unfold stripNameUnderscores
    rw [h7, splitext_append]
  simp only [suggest_filename_fix, fixPipeline]
  rw [hbase, h1, h2, hst3, hst4, hst5, hst6, hst7, if_pos rfl]

/-- Witness for `suggest_fix_idempotent_amended` at the concrete path
`a?b.txt`, whose suggestion `a_b.txt` satisfies all side conditions. -/
theorem suggest_fix_idempotent_amended_witness :
    suggest_filename_fix ("a?b.txt".data) = some ("a_b.txt".data) ∧
      suggest_filename_fix ("a_b.txt".data) = none :=
  ⟨by decide,
    suggest_fix_idempotent_amended ("a?b.txt".data) ("a_b.txt".data)
      (by decide) (by decide) (by decide) (by decide) (by decide)⟩

/-! ## Claims C2 and C5: snapshot loading and the missing-set diff. -/

theorem splitlines_append_newline {e : List Char} (r : List Char) (he : '\n' ∉ e) :
    splitlines (e ++ '\n' :: r) = e :: splitlines r := by
  induction e with
  | nil => simp [splitlines]
  | cons c e' ih =>
    have hc : c ≠ '\n' := fun h => he (h ▸ List.mem_cons_self _ _)
    have he' : '\n' ∉ e' := fun h => he (List.mem_cons_of_mem _ h)
    rw [List.cons_append]
    simp only [splitlines, if_neg hc]
    rw [ih he']

theorem splitlines_writeLines : ∀ {entries : List (List Char)},
    (∀ e ∈ entries, '\n' ∉ e) → splitlines (writeLines entries) = entries := by
  intro entries
  induction entries with
  | nil => intro _; rfl
  | cons e es ih =>
    intro h
    have : writeLines (e :: es) = e ++ '\n' :: writeLines es := by
      simp [writeLines]
    rw [this, splitlines_append_newline _ (h e (List.mem_cons_self _ _)),
      ih (fun x hx => h x (List.mem_cons_of_mem _ hx))]

/-- C2: the computed missing set is exactly the set difference
`older.entries − newer.entries`: a path is reported missing iff it is in
the older snapshot and not in the newer one (so paths present only in the
newer snapshot are never reported); the spec's concrete scenario
`older = {X.mp4, Y.mp4}, newer = {Y.mp4} → missing = {X.mp4}` holds, and
an empty older snapshot always yields an empty missing set. -/
theorem missing_set_is_difference :
    (∀ older newer x, x ∈ missing_titles older newer ↔
        x ∈ load_titles_from_file older ∧ x ∉ load_titles_from_file newer)
    ∧ missing_titles ("X.mp4\nY.mp4\n".data) ("Y.mp4\n".data) = {"X.mp4".data}
    ∧ (∀ newer, missing_titles [] newer = ∅) := by
  refine ⟨fun older newer x => Finset.mem_sdiff, by decide, fun newer => ?_⟩
  unfold missing_titles load_titles_from_file
  simp [splitlines]

/-- C5 counterexample: `load_titles_from_file` does not trim lines and
does not drop empty lines. On the two-line content `"a \n\n"` it loads
the untrimmed entry `"a "` and the empty entry `""`, so the loaded set
differs from the claimed set of non-empty whitespace-trimmed lines. -/
theorem snapshot_loading_cex :
    load_titles_from_file ("a \n\n".data) ≠ load_spec ("a \n\n".data) ∧
      "a ".data ∈ load_titles_from_file ("a \n\n".data) ∧
      ([] : List Char) ∈ load_titles_from_file ("a \n\n".data) :=
  ⟨by decide, by decide, by decide⟩

/-- C5 amended: the trim-and-drop-empties loading behaviour belongs to
`validate_from_file`'s loader only, while `load_titles_from_file` keeps
every line verbatim; the write/reload round-trip holds for both loaders
for entries that are non-empty, newline-free and already trimmed,
regardless of on-disk line order. -/
theorem snapshot_loading_amended :
    (∀ content, validator_load content = load_spec content)
    ∧ (∀ entries entries' : List (List Char),
        (∀ e ∈ entries, e ≠ [] ∧ '\n' ∉ e ∧ stripWS e = e) →
        entries.Perm entries' →
        load_titles_from_file (writeLines entries)
            = load_titles_from_file (writeLines entries')
          ∧ load_titles_from_file (writeLines entries) = entries.toFinset
          ∧ validator_load (writeLines entries) = entries.toFinset) := by
  refine ⟨fun content => rfl, ?_⟩
  intro entries entries' hE hperm
  have hE' : ∀ e ∈ entries', e ≠ [] ∧ '\n' ∉ e ∧ stripWS e = e :=
    fun e he => hE e (hperm.mem_iff.mpr he)
  have h1 : splitlines (writeLines entries) = entries :=
    splitlines_writeLines (fun e he => (hE e he).2.1)
  have h1' : splitlines (writeLines entries') = entries' :=
    splitlines_writeLines (fun e he => (hE' e he).2.1)
  refine ⟨?_, ?_, ?_⟩
  · unfold load_titles_from_file
    rw [h1, h1']
    exact List.toFinset_eq_of_perm _ _ hperm
  · unfold load_titles_from_file
    rw [h1]
  · unfold validator_load validator_load_list
    rw [h1]
    have hmap : entries.map stripWS = entries := by
      have : entries.map stripWS = entries.map id :=
        List.map_congr_left (fun e he => (hE e he).2.2)
      rw [this, List.map_id]
    rw [hmap]
    have hfil : entries.filter (fun l => !l.isEmpty) = entries := by
      apply List.filter_eq_self.mpr
      intro e he
      cases e with
      | nil => exact absurd rfl (hE [] he).1
      | cons c cs => rfl
    rw [hfil]

/-- Witness for `snapshot_loading_amended` at the spec's concrete entries
`{"/a/b.mp4", "/a/c.mkv"}` and a reordering of them. -/
theorem snapshot_loading_amended_witness :
    (∀ e ∈ ["/a/b.mp4".data, "/a/c.mkv".data], e ≠ [] ∧ '\n' ∉ e ∧ stripWS e = e)
    ∧ List.Perm ["/a/b.mp4".data, "/a/c.mkv".data] ["/a/c.mkv".data, "/a/b.mp4".data]
    ∧ (load_titles_from_file (writeLines ["/a/b.mp4".data, "/a/c.mkv".data])
          = load_titles_from_file (writeLines ["/a/c.mkv".data, "/a/b.mp4".data])
        ∧ load_titles_from_file (writeLines ["/a/b.mp4".data, "/a/c.mkv".data])
          = ["/a/b.mp4".data, "/a/c.mkv".data].toFinset
        ∧ validator_load (writeLines ["/a/b.mp4".data, "/a/c.mkv".data])
          = ["/a/b.mp4".data, "/a/c.mkv".data].toFinset) :=
  ⟨by decide, List.Perm.swap _ _ _,
    snapshot_loading_amended.2 _ _ (by decide) (List.Perm.swap _ _ _)⟩

/-! ## Claims C3, C4, C7 and C9: retention management and snapshot
discovery. -/

theorem deleteLoop_spec (ok : List Char → Bool) : ∀ l : List MFile,
    deleteLoop ok l
      = ((l.filter (fun f => ok f.name)).length, l.filter (fun f => !ok f.name)) := by
  intro l
  induction l with
  | nil => rfl
  | cons f fs ih =>
    simp only [deleteLoop, ih]
    by_cases h : ok f.name = true
    · simp [List.filter_cons, h]
    · rw [Bool.not_eq_true] at h
      simp [List.filter_cons, h]

theorem sortDesc_length : ∀ l : List MFile, (sortDesc l).length = l.length := by
  have hins : ∀ (x : MFile) (l : List MFile), (insertDesc x l).length = l.length + 1 := by
    intro x l
    induction l with
    | nil => rfl
    | cons y ys ih =>
      simp only [insertDesc]
      split
      · rfl
      · simp only [List.length_cons, ih]
  intro l
  induction l with
  | nil => rfl
  | cons x xs ih => simp only [sortDesc, hins, ih, List.length_cons]

theorem insertDesc_append_last {x : MFile} : ∀ {l : List MFile},
    (∀ y ∈ l, x.mtime < y.mtime) → insertDesc x l = l ++ [x] := by
  intro l
  induction l with
  | nil => intro _; rfl
  | cons y ys ih =>
    intro H
    have hy : x.mtime < y.mtime := H y (List.mem_cons_self _ _)
    simp only [insertDesc, if_neg (by omega : ¬ y.mtime ≤ x.mtime)]
    rw [ih (fun z hz => H z (List.mem_cons_of_mem _ hz)), List.cons_append]

theorem strictAscB_tail {x : MFile} {l : List MFile} (h : strictAscB (x :: l) = true) :
    strictAscB l = true := by
  cases l with
  | nil => rfl
  | cons y ys => exact (Bool.and_eq_true _ _ |>.mp h).2

theorem strictAscB_head_lt : ∀ {x : MFile} {l : List MFile},
    strictAscB (x :: l) = true → ∀ y ∈ l, x.mtime < y.mtime := by
  intro x l
  induction l generalizing x with
  | nil => intro _ y hy; cases hy
  | cons z zs ih =>
    intro h y hy
    have hxz : x.mtime < z.mtime := of_decide_eq_true (Bool.and_eq_true _ _ |>.mp h).1
    have hrest : strictAscB (z :: zs) = true := (Bool.and_eq_true _ _ |>.mp h).2
    rcases List.mem_cons.mp hy with h1 | h2
    · rw [h1]; exact hxz
    · exact lt_trans hxz (ih hrest y h2)

theorem sortDesc_eq_reverse : ∀ {l : List MFile},
    strictAscB l = true → sortDesc l = l.reverse := by
  intro l
  induction l with
  | nil => intro _; rfl
  | cons x xs ih =>
    intro h
    simp only [sortDesc]
    rw [ih (strictAscB_tail h)]
    rw [insertDesc_append_last (fun y hy =>
      strictAscB_head_lt h y (List.mem_reverse.mp hy))]
    rw [List.reverse_cons]

/-- C3: with a positive keep count smaller than the number of matching
files, distinct (strictly increasing) modification times and every
deletion succeeding, `manage_files` keeps exactly the `keep` most recently
modified files, deletes all the others, and returns
`(kept = keep, deleted = total - keep)`. -/
theorem manage_files_retention (d : List Char) (files : List MFile) (keep : Int)
    (h1 : strictAscB files = true) (h2 : 0 < keep) (h3 : keep < (files.length : Int)) :
    manage_files d true files keep (fun _ => true)
      = ⟨keep, files.length - keep.toNat, none, files.reverse.take keep.toNat⟩ := by
  simp only [manage_files, if_pos, if_true]
  rw [sortDesc_eq_reverse h1, if_pos h3, deleteLoop_spec]
  simp only [List.filter_true]
  rw [show (fun f : MFile => !true) = (fun f : MFile => false) from rfl, List.filter_false]
  unfold pyDrop pyTake
  rw [if_pos h2.le, if_pos h2.le]
  rw [min_eq_right h3.le]
  simp [List.length_drop]

/-- The 12-file scenario of the spec's retention property: files with
strictly increasing modification times 1..12. -/
def retentionExample : List MFile :=
  (List.range 12).map (fun i => ⟨"file".data ++ (Nat.repr (i + 1)).data, i + 1⟩)

/-- Witness for `manage_files_retention`: 12 files with mtimes 1..12 and
`keep = 5` gives `kept = 5`, `deleted = 7` and the 5 newest remaining. -/
theorem manage_files_retention_witness :
    strictAscB retentionExample = true ∧ (0 : Int) < 5 ∧
      (5 : Int) < (retentionExample.length : Int) ∧
      manage_files "lists".data true retentionExample 5 (fun _ => true)
        = ⟨5, retentionExample.length - (5 : Int).toNat, none,
            retentionExample.reverse.take (5 : Int).toNat⟩ ∧
      retentionExample.length - (5 : Int).toNat = 7 :=
  ⟨by decide, by decide, by decide,
    manage_files_retention "lists".data retentionExample 5 (by decide) (by decide) (by decide),
    by decide⟩

/-- C7: deletion failures do not abort the batch — the deleted count is
exactly the number of files in the to-delete slice whose removal
succeeds, and a file whose removal fails is still present afterwards
(later deletions still happen); and a missing directory returns the
distinguishable error string, unlike an existing directory (even an empty
one), which returns no error. -/
theorem manage_files_failure_isolation :
    (∀ d files r ok, (manage_files d true files r ok).deleted
        = ((pyDrop r (sortDesc files)).filter (fun f => ok f.name)).length)
    ∧ (∀ d files r ok f, f ∈ pyDrop r (sortDesc files) → ok f.name = false →
        f ∈ (manage_files d true files r ok).remaining)
    ∧ (∀ d files r ok, (manage_files d false files r ok).error
        = some ("Directory does not exist: ".data ++ d))
    ∧ (∀ d files r ok, (manage_files d true files r ok).error = none) := by
  have hdrop : ∀ (files : List MFile) (r : Int), ¬ r < (files.length : Int) →
      pyDrop r (sortDesc files) = [] := by
    intro files r h
    unfold pyDrop
    rw [if_pos (by omega)]
    apply List.drop_eq_nil_of_le
    rw [sortDesc_length]
    omega
  refine ⟨?_, ?_, ?_, ?_⟩
  · intro d files r ok
    simp only [manage_files, if_true]
    split
    · rw [deleteLoop_spec]
    · rename_i h
      rw [hdrop files r h]
      rfl
  · intro d files r ok f hf hok
    simp only [manage_files, if_true]
    split
    · rw [deleteLoop_spec]
      apply List.mem_append_right
      exact List.mem_filter.mpr ⟨hf, by rw [hok]; rfl⟩
    · rename_i h
      rw [hdrop files r h] at hf
      cases hf
  · intro d files r ok
    rfl
  · intro d files r ok
    simp only [manage_files, if_true]
    split
    · rfl
    · rfl

/-- Witness for `manage_files_failure_isolation`: three files, keep one;
deleting file `a` fails, so `a` is still present afterwards while the
count reports the one successful deletion. -/
theorem manage_files_failure_isolation_witness :
    (⟨"a".data, 1⟩ : MFile) ∈
        pyDrop 1 (sortDesc [⟨"a".data, 1⟩, ⟨"b".data, 2⟩, ⟨"c".data, 3⟩]) ∧
      (!("a".data == "a".data)) = false ∧
      (⟨"a".data, 1⟩ : MFile) ∈
        (manage_files "x".data true [⟨"a".data, 1⟩, ⟨"b".data, 2⟩, ⟨"c".data, 3⟩] 1
          (fun nm => !(nm == "a".data))).remaining ∧
      (manage_files "x".data true [⟨"a".data, 1⟩, ⟨"b".data, 2⟩, ⟨"c".data, 3⟩] 1
          (fun nm => !(nm == "a".data))).deleted = 1 :=
  ⟨by decide, by decide,
    manage_files_failure_isolation.2.1 "x".data
      [⟨"a".data, 1⟩, ⟨"b".data, 2⟩, ⟨"c".data, 3⟩] 1
      (fun nm => !(nm == "a".data)) ⟨"a".data, 1⟩ (by decide) (by decide),
    by decide⟩

/-- C9: `retention_count = 0` deletes every matching file and returns
`kept = 0`; a negative `retention_count` makes the Python slice
`files[retention_count:]` select only the `|retention_count|` oldest
files for deletion (when more than that many exist), and the returned
`files_kept` is the negative number itself, not the count of files
actually remaining. -/
theorem manage_files_nonpositive_retention :
    (∀ d files, manage_files d true files 0 (fun _ => true)
        = ⟨0, files.length, none, []⟩)
    ∧ (∀ d (files : List MFile) (r : Int), r < 0 → -r < (files.length : Int) →
        strictAscB files = true →
        manage_files d true files r (fun _ => true)
          = ⟨r, (-r).toNat, none,
              files.reverse.take ((files.length : Int) + r).toNat⟩) := by
  constructor
  · intro d files
    simp only [manage_files, if_true]
    split
    · rename_i h
      rw [deleteLoop_spec]
      simp only [List.filter_true]
      rw [show (fun f : MFile => !true) = (fun f : MFile => false) from rfl,
        List.filter_false]
      unfold pyDrop pyTake
      rw [if_pos le_rfl, if_pos le_rfl]
      simp [sortDesc_length, min_eq_right (by positivity : (0 : Int) ≤ (files.length : Int))]
    · rename_i h
      have : files.length = 0 := by omega
      rw [List.length_eq_zero] at this
      subst this
      rfl
  · intro d files r hr hlen hasc
    simp only [manage_files, if_true]
    rw [sortDesc_eq_reverse hasc, if_pos (by omega), deleteLoop_spec]
    simp only [List.filter_true]
    rw [show (fun f : MFile => !true) = (fun f : MFile => false) from rfl,
      List.filter_false]
    unfold pyDrop pyTake
    rw [if_neg (by omega), if_neg (by omega)]
    rw [min_eq_right (by omega)]
    simp only [List.length_reverse, List.length_drop, List.append_nil]
    congr 1
    omega

/-- Witness for `manage_files_nonpositive_retention`: five files with
mtimes 1..5 and `retention_count = -2` deletes only the 2 oldest and
returns `kept = -2`. -/
theorem manage_files_nonpositive_retention_witness :
    (-2 : Int) < 0 ∧
      -(-2 : Int) < (([⟨"a".data, 1⟩, ⟨"b".data, 2⟩, ⟨"c".data, 3⟩, ⟨"d".data, 4⟩,
          ⟨"e".data, 5⟩] : List MFile).length : Int) ∧
      strictAscB [⟨"a".data, 1⟩, ⟨"b".data, 2⟩, ⟨"c".data, 3⟩, ⟨"d".data, 4⟩,
          ⟨"e".data, 5⟩] = true ∧
      manage_files "x".data true
          [⟨"a".data, 1⟩, ⟨"b".data, 2⟩, ⟨"c".data, 3⟩, ⟨"d".data, 4⟩, ⟨"e".data, 5⟩]
          (-2) (fun _ => true)
        = ⟨-2, ((2 : Int)).toNat, none,
            ([⟨"a".data, 1⟩, ⟨"b".data, 2⟩, ⟨"c".data, 3⟩, ⟨"d".data, 4⟩,
              ⟨"e".data, 5⟩] : List MFile).reverse.take
              ((([⟨"a".data, 1⟩, ⟨"b".data, 2⟩, ⟨"c".data, 3⟩, ⟨"d".data, 4⟩,
                ⟨"e".data, 5⟩] : List MFile).length : Int) + -2).toNat⟩ :=
  ⟨by decide, by decide, by decide,
    manage_files_nonpositive_retention.2 "x".data
      [⟨"a".data, 1⟩, ⟨"b".data, 2⟩, ⟨"c".data, 3⟩, ⟨"d".data, 4⟩, ⟨"e".data, 5⟩]
      (-2) (by decide) (by decide) (by decide)⟩

/-- C4: `find_two_most_recent_media_lists` returns `(None, None)` when the
directory is absent (the glob is empty) or fewer than two files match; it
sorts the matches by descending modification time and returns the first
two, so with distinct ascending mtimes it returns the newest and the
second newest. It is a total function — it never raises. -/
theorem find_two_most_recent_spec :
    (∀ files, find_two_most_recent_media_lists false files = (none, none))
    ∧ (∀ files, files.length < 2 →
        find_two_most_recent_media_lists true files = (none, none))
    ∧ (∀ files a b rest, sortDesc files = a :: b :: rest →
        find_two_most_recent_media_lists true files = (some a.name, some b.name))
    ∧ (∀ files, strictAscB files = true → 2 ≤ files.length →
        find_two_most_recent_media_lists true files
          = (files.reverse.head?.map MFile.name,
             (files.reverse.drop 1).head?.map MFile.name)) := by
  have key : ∀ files a b rest, sortDesc files = a :: b :: rest →
      find_two_most_recent_media_lists true files = (some a.name, some b.name) := by
    intro files a b rest h
    simp only [find_two_most_recent_media_lists, if_true]
    rw [h]
  refine ⟨fun files => rfl, ?_, key, ?_⟩
  · intro files h
    simp only [find_two_most_recent_media_lists, if_true]
    rcases hsd : sortDesc files with _ | ⟨a, _ | ⟨b, rest⟩⟩
    · rfl
    · rfl
    · exfalso
      have := sortDesc_length files
      rw [hsd] at this
      simp only [List.length_cons] at this
      omega
  · intro files hasc hlen
    have hrev := sortDesc_eq_reverse hasc
    rcases hr : files.reverse with _ | ⟨a, _ | ⟨b, rest⟩⟩
    · exfalso
      have := congrArg List.length hr
      simp only [List.length_reverse, List.length_nil] at this
      omega
    · exfalso
      have := congrArg List.length hr
      simp only [List.length_reverse, List.length_cons, List.length_nil] at this
      omega
    · rw [key files a b rest (by rw [hrev, hr])]
      rfl

/-- Witness for `find_two_most_recent_spec`: three files with ascending
mtimes yield the newest (`m3`) and second newest (`m2`). -/
theorem find_two_most_recent_spec_witness :
    strictAscB [⟨"m1".data, 1⟩, ⟨"m2".data, 2⟩, ⟨"m3".data, 3⟩] = true ∧
      2 ≤ ([⟨"m1".data, 1⟩, ⟨"m2".data, 2⟩, ⟨"m3".data, 3⟩] : List MFile).length ∧
      find_two_most_recent_media_lists true
          [⟨"m1".data, 1⟩, ⟨"m2".data, 2⟩, ⟨"m3".data, 3⟩]
        = (([⟨"m1".data, 1⟩, ⟨"m2".data, 2⟩, ⟨"m3".data, 3⟩] :
              List MFile).reverse.head?.map MFile.name,
           (([⟨"m1".data, 1⟩, ⟨"m2".data, 2⟩, ⟨"m3".data, 3⟩] :
              List MFile).reverse.drop 1).head?.map MFile.name) :=
  ⟨by decide, by decide,
    find_two_most_recent_spec.2.2.2
      [⟨"m1".data, 1⟩, ⟨"m2".data, 2⟩, ⟨"m3".data, 3⟩] (by decide) (by decide)⟩

/-! ## Claim C6: report generation. -/

theorem foldl_append_blocks {β : Type} (f : β → List Char) :
    ∀ (l : List β) (init : List Char),
      l.foldl (fun acc x => acc ++ f x) init = init ++ (l.map f).flatten := by
  intro l
  induction l with
  | nil => intro init; simp
  | cons x xs ih =>
    intro init
    simp only [List.foldl_cons, List.map_cons, List.flatten_cons]
    rw [ih, List.append_assoc]

set_option maxRecDepth 8000 in
/-- C6 counterexample: `generate_report` renders the per-path blocks in
the insertion order of the results dictionary, not sorted by path. With
the results inserted as `b.txt` then `a.txt` the produced report differs
from the spec's sorted-by-path rendering. -/
theorem generate_report_not_sorted_cex :
    generate_report [("b.txt".data, ["i1".data]), ("a.txt".data, ["j1".data])]
      ≠ generate_report_sorted_spec
          [("b.txt".data, ["i1".data]), ("a.txt".data, ["j1".data])] := by
  decide

/-- C6 amended: for a non-empty results map, `generate_report` renders the
summary line carrying the count of affected files, then one block per path
in the results map's insertion order (not sorted), each listing every
issue recorded for that path, followed by the fixed remediation-hints
block. -/
theorem generate_report_amended (results : List (List Char × List (List Char)))
    (h : results ≠ []) :
    generate_report results
      = reportHeader results.length
          ++ (results.map (fun pr => issueBlock pr.1 pr.2)).flatten
          ++ hintsBlock := by
  unfold generate_report
  rw [if_neg (by simpa using h)]
  rw [foldl_append_blocks (fun pr => issueBlock pr.1 pr.2) results, List.append_assoc]

/-- Witness for `generate_report_amended` at a one-entry results map. -/
theorem generate_report_amended_witness :
    ([("p.txt".data, ["an issue".data])] : List (List Char × List (List Char))) ≠ [] ∧
      generate_report [("p.txt".data, ["an issue".data])]
        = reportHeader ([("p.txt".data, ["an issue".data])] :
              List (List Char × List (List Char))).length
            ++ ([("p.txt".data, ["an issue".data])].map
                (fun pr => issueBlock pr.1 pr.2)).flatten
            ++ hintsBlock :=
  ⟨by decide, generate_report_amended [("p.txt".data, ["an issue".data])] (by decide)⟩

/-! ## Claim C8: the media scanner. -/

mutual
theorem walkTree_sound : ∀ (exts : List (List Char)) (cur : List Char) (t : FSTree)
    (p : List Char), p ∈ walkTree exts cur t →
      ∃ f, matchesExt exts f = true ∧ ('/' :: f) <:+ p
  | exts, cur, .node n subs files, p, hp => by
    simp only [walkTree] at hp
    rcases List.mem_append.mp hp with h | h
    · rcases List.mem_map.mp h with ⟨f, hf, rfl⟩
      exact ⟨f, (List.mem_filter.mp hf).2, List.suffix_append cur ('/' :: f)⟩
    · exact walkForest_sound exts cur subs p h

theorem walkForest_sound : ∀ (exts : List (List Char)) (cur : List Char)
    (fr : FSForest) (p : List Char), p ∈ walkForest exts cur fr →
      ∃ f, matchesExt exts f = true ∧ ('/' :: f) <:+ p
  | exts, cur, .nil, p, hp => by cases hp
  | exts, cur, .cons t rest, p, hp => by
    simp only [walkForest] at hp
    rcases List.mem_append.mp hp with h | h
    · split at h
      · cases h
      · exact walkTree_sound exts (cur ++ '/' :: t.dirname) t p h
    · exact walkForest_sound exts cur rest p h
end

/-- C8 counterexample: extension matching is not case-insensitive on the
configured side. With the configured set `{".MP4"}` the file `a.mp4` is
excluded by the scanner, even though its extension `.mp4` equals the
configured extension up to case — so "included iff the extension,
compared case-insensitively, is a member of the configured set" fails. -/
theorem media_scan_case_cex :
    walkTree [".MP4".data] "root".data (.node "r".data .nil ["a.mp4".data]) = [] ∧
      pyLower (splitext ("a.mp4".data)).2 = pyLower (".MP4".data) :=
  ⟨by decide, by decide⟩

/-- C8 amended: directories whose name starts with `.` are pruned from
descent — the scan result does not depend on anything inside a hidden
subdirectory (its entire subtree is never visited) — and a file of a
visited directory is included iff its lowercased name ends with one of
the configured extension strings verbatim (so matching is
case-insensitive in the file's name but literal in the configured
extension, and compares a suffix of the whole name rather than the
splitext extension). -/
theorem media_scan_amended :
    (∀ (exts : List (List Char)) (cur n h : List Char) (s1 s2 : FSForest)
        (f1 f2 : List (List Char)) (rest : FSForest) (files : List (List Char)),
        hiddenName h = true →
        walkTree exts cur (.node n (.cons (.node h s1 f1) rest) files)
          = walkTree exts cur (.node n (.cons (.node h s2 f2) rest) files))
    ∧ (∀ (exts : List (List Char)) (cur n : List Char) (subs : FSForest)
        (files : List (List Char)) (f : List Char),
        f ∈ files → matchesExt exts f = true →
        (cur ++ '/' :: f) ∈ walkTree exts cur (.node n subs files))
    ∧ (∀ (exts : List (List Char)) (cur : List Char) (t : FSTree) (p : List Char),
        p ∈ walkTree exts cur t →
        ∃ f, matchesExt exts f = true ∧ ('/' :: f) <:+ p) := by
  refine ⟨?_, ?_, walkTree_sound⟩
  · intro exts cur n h s1 s2 f1 f2 rest files hh
    simp only [walkTree, walkForest, FSTree.dirname, hh, if_true]
  · intro exts cur n subs files f hf hm
    simp only [walkTree]
    exact List.mem_append_left _
      (List.mem_map.mpr ⟨f, List.mem_filter.mpr ⟨hf, hm⟩, rfl⟩)

/-- Witness for `media_scan_amended`: replacing the contents of a hidden
`.git` subdirectory does not change the scan result. -/
theorem media_scan_amended_witness :
    hiddenName (".git".data) = true ∧
      walkTree [".mp4".data] "root".data
          (.node "r".data (.cons (.node ".git".data .nil ["h.mp4".data]) .nil)
            ["a.mp4".data])
        = walkTree [".mp4".data] "root".data
          (.node "r".data
            (.cons (.node ".git".data (.cons (.node "x".data .nil []) .nil)
              ["z.mp4".data]) .nil)
            ["a.mp4".data]) :=
  ⟨by decide,
    media_scan_amended.1 [".mp4".data] "root".data "r".data ".git".data
      .nil (.cons (.node "x".data .nil []) .nil) ["h.mp4".data] ["z.mp4".data]
      .nil ["a.mp4".data] (by decide)⟩

end MissingMedia
